import Mathlib

/-
Verification of the result-extraction and dynamic test-execution subsystem
of the CrewAI problem solver (src/main.py).

Python strings are modelled as `List Char`.  The helper functions below are
shallow embeddings of the string operations used by `extract_solution`,
`extract_test_cases` and `run_tests` in src/main.py.  Regular-expression
scans are embedded as explicit character scanners that follow the
lazy/greedy semantics of the concrete patterns used in the source.
-/

namespace CrewSolver

/-- Python `\s` / `str.strip()` whitespace over the ASCII range. -/
def pyIsSpace (c : Char) : Bool :=
  c = ' ' || c = '\t' || c = '\n' || c = '\r' || c = '\x0b' || c = '\x0c'

/-- Python `\w`: alphanumeric or underscore. -/
def pyIsWordChar (c : Char) : Bool :=
  c.isAlphanum || c = '_'

/-- Drop leading characters satisfying `p` from both ends (Python `str.strip`). -/
def stripBoth (p : Char → Bool) (s : List Char) : List Char :=
  ((s.dropWhile p).reverse.dropWhile p).reverse

/-- Python `str.strip()` (whitespace). -/
def stripWs (s : List Char) : List Char := stripBoth pyIsSpace s

/-- Python `str.strip('()')`. -/
def stripParens (s : List Char) : List Char :=
  stripBoth (fun c => c = '(' || c = ')') s

/-- Python `str.split(sep)` for a one-character separator. -/
def splitOnChar (sep : Char) : List Char → List (List Char)
  | [] => [[]]
  | c :: cs =>
    if c = sep then [] :: splitOnChar sep cs
    else
      match splitOnChar sep cs with
      | [] => [[c]]
      | p :: ps => (c :: p) :: ps

/-- Match a literal pattern at the head of `s`, returning the rest on success. -/
def matchLit : List Char → List Char → Option (List Char)
  | [], s => some s
  | _ :: _, [] => none
  | p :: ps, c :: cs => if p = c then matchLit ps cs else none

/-- Greedy `\s*`. -/
def skipWs (s : List Char) : List Char := s.dropWhile pyIsSpace

/-- Python `str.startswith(c)` for a single character. -/
def headIs (c : Char) : List Char → Bool
  | [] => false
  | x :: _ => x = c

/-- Python `str.endswith(c)` for a single character. -/
def lastIs (c : Char) (s : List Char) : Bool := headIs c s.reverse

-- ------------------------------------------------------------------
-- extract_solution (src/main.py lines 305-318):
-- `re.search(r'```(?:python)?\n(.*?)\n```', result, re.DOTALL)`,
-- then `group(1).strip()`, else the empty string.
-- ------------------------------------------------------------------

/-- The literal triple backtick of the fence pattern. -/
def fenceTicks : List Char := "```".toList

/-- The optional language tag together with the mandatory newline. -/
def pythonNl : List Char := "python\n".toList

/-- The closing delimiter `\n```` ` of the fence pattern. -/
def closeFence : List Char := "\n```".toList

/-- The backtick character. -/
def tickChar : Char := "`".toList.headD ' '

/-- A complete `python`-tagged opening fence, used to state the shape of
inputs that contain a fenced code block. -/
def fenceOpen : List Char := "```python\n".toList

/-- Lazy `(.*?)` under DOTALL followed by the closing fence: the content up
to the first occurrence of `closeFence`, and the rest after it. -/
def scanClose : List Char → Option (List Char × List Char)
  | [] => none
  | c :: cs =>
    match matchLit closeFence (c :: cs) with
    | some r => some ([], r)
    | none =>
      match scanClose cs with
      | some (a, r) => some (c :: a, r)
      | none => none

/-- Attempt the fenced-block pattern at the current position: ` ``` `,
optionally `python` (greedy), a newline, then lazy content up to `\n``` `.
Returns the captured group and the rest after the match. -/
def tryBlockAt (s : List Char) : Option (List Char × List Char) :=
  match matchLit fenceTicks s with
  | none => none
  | some r0 =>
    match matchLit pythonNl r0 with
    | some r1 => scanClose r1
    | none =>
      match r0 with
      | '\n' :: r1 => scanClose r1
      | _ => none

/-- `re.search` for the fenced-block pattern: leftmost match's group. -/
def searchBlock : List Char → Option (List Char)
  | [] => none
  | c :: cs =>
    match tryBlockAt (c :: cs) with
    | some g => some g.1
    | none => searchBlock cs

/-- `extract_solution` (src/main.py lines 305-318): the first fenced code
block's contents, stripped, else the empty string.  The function never
raises. -/
def extract_solution (result : List Char) : List Char :=
  match searchBlock result with
  | some content => stripWs content
  | none => []

/-- `re.findall` for the fenced-block pattern (src/main.py line 327),
resuming after each match.  The fuel argument (instantiated with the text
length, an upper bound on the number of scanning steps since every step
consumes at least one character) makes the scan structurally recursive. -/
def scanBlocksF : Nat → List Char → List (List Char)
  | 0, _ => []
  | _ + 1, [] => []
  | n + 1, c :: cs =>
    match tryBlockAt (c :: cs) with
    | some (content, rest) => content :: scanBlocksF n rest
    | none => scanBlocksF n cs

-- ------------------------------------------------------------------
-- extract_test_cases (src/main.py lines 320-393).
-- ------------------------------------------------------------------

/-- A parsed test case: dict `{'input': ..., 'expected': ...}` of unevaluated
source expressions (src/main.py lines 347-350). -/
structure TestCase where
  input : List Char
  expected : List Char
deriving DecidableEq, Repr

/-- The literal `test_cases` of the pattern on line 332. -/
def kwTestCases : List Char := "test_cases".toList

/-- Lazy `(.*?)` under DOTALL up to the first `]` (pattern of line 332). -/
def scanToRBracket : List Char → Option (List Char)
  | [] => none
  | c :: cs =>
    if c = ']' then some []
    else
      match scanToRBracket cs with
      | some g => some (c :: g)
      | none => none

/-- Attempt `test_cases\s*=\s*\[(.*?)\]` at the current position. -/
def tryTCAt (s : List Char) : Option (List Char) :=
  match matchLit kwTestCases s with
  | none => none
  | some r0 =>
    match skipWs r0 with
    | '=' :: r1 =>
      match skipWs r1 with
      | '[' :: r2 => scanToRBracket r2
      | _ => none
    | _ => none

/-- `re.search` for the `test_cases = [...]` assignment inside a block. -/
def searchTC : List Char → Option (List Char)
  | [] => none
  | c :: cs =>
    match tryTCAt (c :: cs) with
    | some g => some g
    | none => searchTC cs

/-- The `', '` separator of the join on line 345. -/
def commaSpace : List Char := [',', ' ']

/-- The body of the `for test_case in test_cases_str.split(','):` loop
(src/main.py lines 337-350): strip, skip empties, strip parentheses,
comma-split, and keep the piece only when it has at least two parts. -/
def parseTupleEntry (piece : List Char) : Option TestCase :=
  let t := stripWs piece
  if t.isEmpty then none
  else
    let parts := (splitOnChar ',' (stripParens t)).map stripWs
    if 2 ≤ parts.length then
      some ⟨('(' :: List.intercalate commaSpace parts.dropLast) ++ [')'],
            stripWs (parts.getLastD [])⟩
    else none

/-- Strategy 1 applied to one code block (src/main.py lines 331-353). -/
def strategy1Block (block : List Char) : List TestCase :=
  match searchTC block with
  | none => []
  | some inner => (splitOnChar ',' inner).filterMap parseTupleEntry

/-- Strategy 1, the structured-list strategy (src/main.py lines 326-353):
cases collected from the `test_cases = [...]` assignments of all fenced
code blocks, in order. -/
def strategy1 (text : List Char) : List TestCase :=
  (scanBlocksF text.length text).flatMap strategy1Block

/-- The literal `print(` of the pattern on line 358. -/
def kwPrint : List Char := "print(".toList

/-- Lazy `(.*?)` without DOTALL up to the first `)` (pattern of line 358):
fails at a newline or at the end of input. -/
def scanToCloseParen : List Char → Option (List Char × List Char)
  | [] => none
  | c :: cs =>
    if c = ')' then some ([], cs)
    else if c = '\n' then none
    else
      match scanToCloseParen cs with
      | some (a, r) => some (c :: a, r)
      | none => none

/-- Attempt `print\((.*?)\)` at the current position. -/
def tryPrintAt (s : List Char) : Option (List Char × List Char) :=
  match matchLit kwPrint s with
  | none => none
  | some r0 => scanToCloseParen r0

/-- `re.findall(r'print\((.*?)\)', ...)` (line 358), fuel as in
`scanBlocksF`. -/
def scanPrintsF : Nat → List Char → List (List Char)
  | 0, _ => []
  | _ + 1, [] => []
  | n + 1, c :: cs =>
    match tryPrintAt (c :: cs) with
    | some (stmt, rest) => stmt :: scanPrintsF n rest
    | none => scanPrintsF n cs

/-- The literal `Input:` of the pattern on line 361. -/
def kwInput : List Char := "Input:".toList

/-- The literal `Expected Output:` of the pattern on line 361. -/
def kwExpectedOut : List Char := "Expected Output:".toList

/-- Lazy `(.*?)` under DOTALL followed by a mandatory literal newline. -/
def scanToNl : List Char → Option (List Char × List Char)
  | [] => none
  | c :: cs =>
    if c = '\n' then some ([], cs)
    else
      match scanToNl cs with
      | some (a, r) => some (c :: a, r)
      | none => none

/-- Lazy `(.*?)(?:\n|$)`: content up to the first newline or the end. -/
def scanToNlOrEnd : List Char → List Char × List Char
  | [] => ([], [])
  | c :: cs =>
    if c = '\n' then ([], cs)
    else
      let r := scanToNlOrEnd cs
      (c :: r.1, r.2)

/-- The lazy `.*?#\s*Expected Output:\s*` part of the pattern on line 361:
skip to the first position where `#`, optional whitespace and the literal
match, returning the rest after the trailing `\s*`. -/
def searchExpectedMark : List Char → Option (List Char)
  | [] => none
  | c :: cs =>
    match (if c = '#' then matchLit kwExpectedOut (skipWs cs) else none) with
    | some r => some (skipWs r)
    | none => searchExpectedMark cs

/-- Attempt the annotation pattern of line 361 at the current position:
`#\s*Input:\s*(.*?)\n.*?#\s*Expected Output:\s*(.*?)(?:\n|$)` (DOTALL). -/
def tryCommentAt (s : List Char) : Option (List Char × List Char) :=
  match s with
  | [] => none
  | c :: r0 =>
    if c = '#' then
      match matchLit kwInput (skipWs r0) with
      | none => none
      | some r1 =>
        match scanToNl (skipWs r1) with
        | none => none
        | some (g1, r2) =>
          match searchExpectedMark r2 with
          | none => none
          | some r3 => some (g1, (scanToNlOrEnd r3).1)
    else none

/-- `re.search` for the annotation pattern inside one print statement. -/
def searchComment : List Char → Option (List Char × List Char)
  | [] => none
  | c :: cs =>
    match tryCommentAt (c :: cs) with
    | some g => some g
    | none => searchComment cs

/-- Strategy 2, the annotated-print strategy (src/main.py lines 356-371). -/
def strategy2 (text : List Char) : List TestCase :=
  (scanPrintsF text.length text).filterMap fun stmt =>
    (searchComment stmt).map fun g => ⟨stripWs g.1, stripWs g.2⟩

/-- The literal `assert` of the pattern on line 376. -/
def kwAssert : List Char := "assert".toList

/-- The literal `==` of the pattern on line 376. -/
def eqeq : List Char := ['=', '=']

/-- Greedy `(\w+)`. -/
def spanWord : List Char → List Char × List Char
  | [] => ([], [])
  | c :: cs =>
    if pyIsWordChar c then
      let r := spanWord cs
      (c :: r.1, r.2)
    else ([], c :: cs)

/-- Lazy `(.*?)` (no DOTALL) followed by `\)\s*==`: the argument text up to
the first `)` that is followed by optional whitespace and `==`; the rest
returned is the text after the `==`. -/
def scanArgs : List Char → Option (List Char × List Char)
  | [] => none
  | c :: cs =>
    match (if c = ')' then matchLit eqeq (skipWs cs) else none) with
    | some r => some ([], r)
    | none =>
      if c = '\n' then none
      else
        match scanArgs cs with
        | some (a, r) => some (c :: a, r)
        | none => none

/-- `$` under MULTILINE: end of input or immediately before a newline. -/
def atEol : List Char → Bool
  | [] => true
  | c :: _ => c = '\n'

/-- Lazy `.*?` (no DOTALL) inside the quoted message, followed by the
closing quote and `$`. -/
def scanQuoteEnd : List Char → Option (List Char)
  | [] => none
  | c :: cs =>
    if c = '"' && atEol cs then some cs
    else if c = '\n' then none
    else scanQuoteEnd cs

/-- The optional message group `\s*,\s*".*?"` followed by `$`: on success
returns the rest after the whole group (positioned at end of line). -/
def tryMsg (s : List Char) : Option (List Char) :=
  match skipWs s with
  | [] => none
  | c1 :: r1 =>
    if c1 = ',' then
      match skipWs r1 with
      | [] => none
      | c2 :: r2 => if c2 = '"' then scanQuoteEnd r2 else none
    else none

/-- The lazy expansion of `(.*?)(?:\s*,\s*".*?")?$`: at each length first
try the (greedy, preferred) message group then the bare `$`; `.` does not
cross a newline.  Returns the captured expected text and the rest after
the match. -/
def expLoop : List Char → List Char → List Char × List Char
  | acc, [] => (acc.reverse, [])
  | acc, c :: cs =>
    match tryMsg (c :: cs) with
    | some rest => (acc.reverse, rest)
    | none =>
      if c = '\n' then (acc.reverse, c :: cs)
      else expLoop (c :: acc) cs

/-- Attempt the assertion pattern of line 376 at the current position:
`assert\s+(\w+)\s*\((.*?)\)\s*==\s*(.*?)(?:\s*,\s*".*?")?$` (MULTILINE).
Returns the three groups and the rest after the match. -/
def tryAssertAt (s : List Char) :
    Option ((List Char × List Char × List Char) × List Char) :=
  match matchLit kwAssert s with
  | none => none
  | some r0 =>
    match r0 with
    | [] => none
    | c :: cs =>
      if pyIsSpace c then
        let nr := spanWord (skipWs cs)
        if nr.1.isEmpty then none
        else
          match skipWs nr.2 with
          | [] => none
          | c3 :: r3 =>
            if c3 = '(' then
              match scanArgs r3 with
              | none => none
              | some (args, r4) =>
                let res := expLoop [] (skipWs r4)
                some ((nr.1, args, res.1), res.2)
            else none
      else none

/-- `re.findall` for the assertion pattern (line 376), fuel as in
`scanBlocksF`. -/
def scanAssertsF : Nat → List Char → List (List Char × List Char × List Char)
  | 0, _ => []
  | _ + 1, [] => []
  | n + 1, c :: cs =>
    match tryAssertAt (c :: cs) with
    | some (g, rest) => g :: scanAssertsF n rest
    | none => scanAssertsF n cs

/-- Line 379: wrap the argument text in parentheses unless it already both
starts with `(` and ends with `)`. -/
def wrapParens (a : List Char) : List Char :=
  if headIs '(' a && lastIs ')' a then a else ('(' :: a) ++ [')']

/-- One test case built from an assertion match (src/main.py lines 377-383). -/
def assertCase (g : List Char × List Char × List Char) : TestCase :=
  ⟨wrapParens (stripWs g.2.1), stripWs g.2.2⟩

/-- Strategy 3, the assertion strategy (src/main.py lines 374-386). -/
def strategy3 (text : List Char) : List TestCase :=
  (scanAssertsF text.length text).map assertCase

/-- Source text of an optional trailing assertion message: nothing, or
`, "<message>"`.  Used to state the shape of assertion statements. -/
def msgEnc : Option (List Char) → List Char
  | none => []
  | some m => ',' :: ' ' :: '"' :: (m ++ ['"'])

/-- `extract_test_cases` (src/main.py lines 320-393): strategy 1 on the
fenced code blocks; only if it yielded nothing, strategy 2 on print
statements; only if that also yielded nothing, strategy 3 on assertion
statements. -/
def extract_test_cases (text : List Char) : List TestCase :=
  let s1 := strategy1 text
  if s1.isEmpty then
    let s2 := strategy2 text
    if s2.isEmpty then strategy3 text else s2
  else s1

-- ------------------------------------------------------------------
-- Test runner: `run_tests` in src/main.py (lines 395-504).
-- The dynamic `eval` and the loaded callable are opaque host-language
-- services; they are passed in as functions returning `Except`, mirroring
-- "returns a value or raises an exception carrying a message".
-- ------------------------------------------------------------------

/-- Per-case outcome recorded by the runner loop: either both values were
obtained (lines 470-485) or an exception message was recorded (lines 487-492). -/
inductive CaseOutcome (V : Type) where
  | done (actual expected : V)
  | error (msg : List Char)
deriving DecidableEq, Repr

/-- The status recorded in the report for one case. -/
inductive Status where
  | PASSED
  | FAILED
  | ERROR
deriving DecidableEq, Repr

/-- Status of an outcome: `'PASSED' if passed else 'FAILED'` (line 484),
and the error entry of lines 489-492. -/
def caseStatus {V : Type} [DecidableEq V] : CaseOutcome V → Status
  | .done a e => if a = e then .PASSED else .FAILED
  | .error _ => .ERROR

/-- Evaluate a list of argument expressions left to right, propagating the
first exception (the list comprehension on line 465). -/
def evalEach {V : Type} (ev : List Char → Except (List Char) V) :
    List (List Char) → Except (List Char) (List V)
  | [] => .ok []
  | x :: xs =>
    match ev x with
    | .error e => .error e
    | .ok v =>
      match evalEach ev xs with
      | .error e => .error e
      | .ok vs => .ok (v :: vs)

/-- Argument marshaling of src/main.py lines 458-467: strip the input text;
if parenthesized, strip the outer parentheses and comma-split, else evaluate
the whole text as a single argument. -/
def evalArgs {V : Type} (ev : List Char → Except (List Char) V)
    (inputStr : List Char) : Except (List Char) (List V) :=
  let s := stripWs inputStr
  if headIs '(' s && lastIs ')' s then
    let inner := stripWs ((s.drop 1).dropLast)
    if inner.contains ',' then
      evalEach ev ((splitOnChar ',' inner).map stripWs)
    else
      (ev inner).map (fun v => [v])
  else
    (ev s).map (fun v => [v])

/-- One iteration of the `for i, test in enumerate(test_cases, 1)` loop
(src/main.py lines 456-492): evaluate the arguments, invoke the callable,
evaluate the expected expression; any failure is caught and recorded. -/
def runCase {V : Type} (ev : List Char → Except (List Char) V)
    (callF : List V → Except (List Char) V) (t : TestCase) : CaseOutcome V :=
  match evalArgs ev t.input with
  | .error e => .error e
  | .ok args =>
    match callF args with
    | .error e => .error e
    | .ok actual =>
      match ev (stripWs t.expected) with
      | .error e => .error e
      | .ok expd => .done actual expd

/-- The whole loop: the per-case outcomes in order together with the running
`passed_count` (src/main.py lines 451-492). -/
def runAll {V : Type} [DecidableEq V] (ev : List Char → Except (List Char) V)
    (callF : List V → Except (List Char) V) :
    List TestCase → List (CaseOutcome V) × Nat
  | [] => ([], 0)
  | t :: ts =>
    let r := runCase ev callF t
    let rest := runAll ev callF ts
    (r :: rest.1, (if caseStatus r = Status.PASSED then 1 else 0) + rest.2)

/-- Result of `run_tests`: the guard of lines 399-401 or a report with the
per-case outcomes, `passed_count` and `total_count` (lines 451-497). -/
inductive RunReport (V : Type) where
  | noInput
  | report (results : List (CaseOutcome V)) (passedCount totalCount : Nat)
deriving DecidableEq, Repr

/-- `run_tests` (src/main.py lines 395-504) after the solution has been
loaded: the empty-input guard, then the per-case loop and the summary
counters.  Loading (`exec` and entry-point selection) is modelled
separately by `loadEntryPoint` below; the selected callable is `callF`. -/
def run_tests {V : Type} [DecidableEq V] (solutionCode : List Char)
    (ev : List Char → Except (List Char) V)
    (callF : List V → Except (List Char) V)
    (cases : List TestCase) : RunReport V :=
  if solutionCode.isEmpty || cases.isEmpty then .noInput
  else
    let res := runAll ev callF cases
    .report res.1 res.2 cases.length

-- ------------------------------------------------------------------
-- Entry-point selection of run_tests (src/main.py lines 418-448).
-- The namespace produced by `exec` is modelled as an association list in
-- insertion order.  A binding is either callable or not; for a callable,
-- `instMethods` models the attribute names present on the object obtained
-- by calling it with no arguments (`none`: that call raises).
-- ------------------------------------------------------------------

/-- A value bound in the executed module namespace. -/
inductive PyObj where
  | callable (instMethods : Option (List String))
  | nonCallable
deriving DecidableEq, Repr

/-- Python `callable(obj)`. -/
def isCallable : PyObj → Bool
  | .callable _ => true
  | .nonCallable => false

/-- What the selection loop found first: a binding named `Solution`, or a
callable binding (src/main.py lines 420-428; the loop breaks on whichever
branch matches first). -/
inductive EntrySel where
  | classSel (obj : PyObj)
  | funcSel (obj : PyObj)
deriving DecidableEq, Repr

/-- The `for name, obj in test_module.__dict__.items()` loop of
src/main.py lines 420-428. -/
def findEntry : List (String × PyObj) → Option EntrySel
  | [] => none
  | (n, o) :: rest =>
    if n = "Solution" then some (.classSel o)
    else if isCallable o && n ≠ "test_cases" then some (.funcSel o)
    else findEntry rest

/-- The fixed ordered method-name preference list of src/main.py line 439. -/
def prefMethods : List String :=
  ["isMatch", "twoSum", "reverseList", "search", "sortArray"]

/-- The `for method_name in [...]` probe of src/main.py lines 439-443:
first name of the preference list present on the instance. -/
def pickMethod (ms : List String) : Option String :=
  prefMethods.find? (fun m => ms.contains m)

/-- Overall result of loading and entry-point selection. -/
inductive LoadOutcome where
  | noSolution
  | standalone (o : PyObj)
  | classMethod (m : String)
  | noMethod
  | constructionRaised
deriving DecidableEq, Repr

/-- Entry-point selection of `run_tests` (src/main.py lines 418-448):
the first `Solution`-named or callable binding wins; a `Solution` binding
is instantiated (an exception there escapes to the outer handler) and its
instance probed with `pickMethod`; otherwise the callable is used as a
standalone function. -/
def loadEntryPoint (ns : List (String × PyObj)) : LoadOutcome :=
  match findEntry ns with
  | none => .noSolution
  | some (.funcSel o) => .standalone o
  | some (.classSel o) =>
    match o with
    | .callable (some ms) =>
      match pickMethod ms with
      | some m => .classMethod m
      | none => .noMethod
    | .callable none => .constructionRaised
    | .nonCallable => .constructionRaised

-- ------------------------------------------------------------------
-- Concrete evaluation environment used by witnesses: a tiny expression
-- table standing in for Python `eval`, and an addition callable.
-- ------------------------------------------------------------------

/-- A concrete stand-in for Python `eval` over a few integer literals. -/
def evalDemo (s : List Char) : Except (List Char) Int :=
  if s = ['2'] then .ok 2
  else if s = ['3'] then .ok 3
  else if s = ['4'] then .ok 4
  else if s = ['5'] then .ok 5
  else .error ("NameError".toList)

/-- A concrete two-argument callable (an `add` function). -/
def callAdd : List Int → Except (List Char) Int
  | [a, b] => .ok (a + b)
  | _ => .error ("TypeError: arity".toList)

-- ------------------------------------------------------------------
-- Helper lemmas.
-- ------------------------------------------------------------------

theorem runAll_fst {V : Type} [DecidableEq V] (ev : List Char → Except (List Char) V)
    (callF : List V → Except (List Char) V) (cases : List TestCase) :
    (runAll ev callF cases).1 = cases.map (runCase ev callF) := by
  induction cases with
  | nil => rfl
  | cons t ts ih => simp [runAll, ih]

theorem runAll_snd {V : Type} [DecidableEq V] (ev : List Char → Except (List Char) V)
    (callF : List V → Except (List Char) V) (cases : List TestCase) :
    (runAll ev callF cases).2 =
      ((cases.map (runCase ev callF)).filter
        (fun r => decide (caseStatus r = Status.PASSED))).length := by
  induction cases with
  | nil => rfl
  | cons t ts ih =>
    simp only [runAll, List.map_cons, List.filter_cons]
    by_cases h : caseStatus (runCase ev callF t) = Status.PASSED
    · simp [h, ih, Nat.add_comm]
    · simp [h, ih]

theorem matchLit_append (p r : List Char) : matchLit p (p ++ r) = some r := by
  induction p with
  | nil => rfl
  | cons c cs ih => simp [matchLit, ih]

theorem matchLit_cons_ne {p c : Char} (ps cs : List Char) (h : p ≠ c) :
    matchLit (p :: ps) (c :: cs) = none := by
  simp [matchLit, h]

theorem tryBlockAt_none_of_ne {c : Char} (cs : List Char) (h : c ≠ tickChar) :
    tryBlockAt (c :: cs) = none := by
  have hft : fenceTicks = tickChar :: tickChar :: tickChar :: [] := by decide
  rw [tryBlockAt, hft, matchLit_cons_ne _ _ (Ne.symm h)]

theorem matchLit_closeFence_nl (X : List Char) :
    matchLit closeFence ('\n' :: X)
      = matchLit (tickChar :: tickChar :: tickChar :: []) X := by
  have hcf : closeFence = '\n' :: tickChar :: tickChar :: tickChar :: [] := by decide
  rw [hcf]; simp [matchLit]

theorem matchLit_closeFence_ne {c : Char} (X : List Char) (h : c ≠ '\n') :
    matchLit closeFence (c :: X) = none := by
  have hcf : closeFence = '\n' :: tickChar :: tickChar :: tickChar :: [] := by decide
  rw [hcf]
  exact matchLit_cons_ne _ _ (fun hx => h hx.symm)

theorem scanClose_boundary (content post : List Char) (hc : tickChar ∉ content) :
    scanClose (content ++ (closeFence ++ post)) = some (content, post) := by
  have hcf : closeFence = '\n' :: tickChar :: tickChar :: tickChar :: [] := by decide
  induction content with
  | nil =>
    have h1 : matchLit closeFence ('\n' :: tickChar :: tickChar :: tickChar :: post)
        = some post := by
      rw [matchLit_closeFence_nl]
      simp [matchLit]
    rw [List.nil_append, hcf]
    simp only [List.cons_append, List.nil_append]
    simp [scanClose, h1]
  | cons c cs ih =>
    have hcne : c ≠ tickChar := fun hx => hc (by simp [hx])
    have hcs : tickChar ∉ cs := fun hx => hc (by simp [hx])
    have hnone : matchLit closeFence (c :: (cs ++ (closeFence ++ post))) = none := by
      by_cases hcn : c = '\n'
      · subst hcn
        rw [matchLit_closeFence_nl]
        rcases cs with _ | ⟨y, ys⟩
        · rw [List.nil_append, hcf]
          simp only [List.cons_append, List.nil_append]
          exact matchLit_cons_ne _ _ (by decide)
        · have hy : y ≠ tickChar := fun hx => hcs (by simp [hx])
          simp only [List.cons_append]
          exact matchLit_cons_ne _ _ (Ne.symm hy)
      · exact matchLit_closeFence_ne _ hcn
    have ihr := ih hcs
    simp only [List.cons_append]
    simp [scanClose, hnone, ihr]

theorem tryBlockAt_opener (content post : List Char) (hc : tickChar ∉ content) :
    tryBlockAt (fenceOpen ++ (content ++ (closeFence ++ post))) = some (content, post) := by
  show scanClose (content ++ (closeFence ++ post)) = some (content, post)
  exact scanClose_boundary content post hc

theorem searchBlock_pos {c : Char} {cs g r : List Char}
    (h : tryBlockAt (c :: cs) = some (g, r)) : searchBlock (c :: cs) = some g := by
  simp [searchBlock, h]

theorem searchBlock_skip (pre rest : List Char) (hp : tickChar ∉ pre) :
    searchBlock (pre ++ rest) = searchBlock rest := by
  induction pre with
  | nil => rw [List.nil_append]
  | cons c cs ih =>
    have hcne : c ≠ tickChar := fun hx => hp (by simp [hx])
    have hcs : tickChar ∉ cs := fun hx => hp (by simp [hx])
    rw [List.cons_append]
    simp only [searchBlock, tryBlockAt_none_of_ne _ hcne]
    exact ih hcs

theorem searchBlock_none (t : List Char) (h : tickChar ∉ t) : searchBlock t = none := by
  have hs := searchBlock_skip t [] h
  rw [List.append_nil] at hs
  rw [hs]; rfl

theorem mem_stripBoth {p : Char → Bool} {a : Char} {s : List Char}
    (h : a ∈ stripBoth p s) : a ∈ s := by
  unfold stripBoth at h
  rw [List.mem_reverse] at h
  have h1 := (List.dropWhile_sublist p).mem h
  rw [List.mem_reverse] at h1
  exact (List.dropWhile_sublist p).mem h1

theorem splitOnChar_ne_nil (sep : Char) (s : List Char) : splitOnChar sep s ≠ [] := by
  cases s with
  | nil => simp [splitOnChar]
  | cons c cs =>
    rw [splitOnChar]
    by_cases h : c = sep
    · simp [h]
    · cases hr : splitOnChar sep cs <;> simp [h, hr]

theorem splitOnChar_not_mem {sep : Char} :
    ∀ {s piece : List Char}, piece ∈ splitOnChar sep s → sep ∉ piece := by
  intro s
  induction s with
  | nil =>
    intro piece h
    simp [splitOnChar] at h
    simp [h]
  | cons c cs ih =>
    intro piece h
    rw [splitOnChar] at h
    by_cases hc : c = sep
    · rw [if_pos hc] at h
      rcases List.mem_cons.mp h with h | h
      · simp [h]
      · exact ih h
    · rw [if_neg hc] at h
      cases hr : splitOnChar sep cs with
      | nil => exact absurd hr (splitOnChar_ne_nil sep cs)
      | cons q qs =>
        rw [hr] at h
        rcases List.mem_cons.mp h with h | h
        · have hq : sep ∉ q := ih (hr ▸ List.mem_cons_self q qs)
          subst h
          intro hx
          rcases List.mem_cons.mp hx with hx | hx
          · exact hc hx.symm
          · exact hq hx
        · exact ih (hr ▸ List.mem_cons_of_mem q h)

theorem splitOnChar_eq_single {sep : Char} :
    ∀ {s : List Char}, sep ∉ s → splitOnChar sep s = [s] := by
  intro s
  induction s with
  | nil => intro _; rfl
  | cons c cs ih =>
    intro h
    have hc : c ≠ sep := fun hx => h (by simp [hx])
    have hcs : sep ∉ cs := fun hx => h (by simp [hx])
    rw [splitOnChar, if_neg (fun hx => hc hx), ih hcs]

theorem parseTupleEntry_none {piece : List Char} (h : ',' ∉ piece) :
    parseTupleEntry piece = none := by
  unfold parseTupleEntry
  by_cases he : (stripWs piece).isEmpty
  · simp [he]
  · have h1 : ',' ∉ stripWs piece := fun hx => h (mem_stripBoth hx)
    have h2 : ',' ∉ stripParens (stripWs piece) := fun hx => h1 (mem_stripBoth hx)
    rw [stripParens] at h2
    simp only [he, if_false, Bool.false_eq_true]
    rw [stripParens, splitOnChar_eq_single h2]
    simp

theorem strategy1_empty (text : List Char) : strategy1 text = [] := by
  unfold strategy1
  rw [List.flatMap_eq_nil_iff]
  intro b _
  unfold strategy1Block
  cases hs : searchTC b with
  | none => rfl
  | some inner =>
    apply List.filterMap_eq_nil_iff.mpr
    intro piece hp
    exact parseTupleEntry_none (splitOnChar_not_mem hp)

theorem scanToCloseParen_no_nl :
    ∀ {s a r : List Char}, scanToCloseParen s = some (a, r) → '\n' ∉ a := by
  intro s
  induction s with
  | nil => intro a r h; simp [scanToCloseParen] at h
  | cons c cs ih =>
    intro a r h
    rw [scanToCloseParen] at h
    by_cases h1 : c = ')'
    · rw [if_pos h1] at h
      cases h
      simp
    · rw [if_neg h1] at h
      by_cases h2 : c = '\n'
      · rw [if_pos h2] at h; cases h
      · rw [if_neg h2] at h
        cases hr : scanToCloseParen cs with
        | none => rw [hr] at h; cases h
        | some pr =>
          rw [hr] at h
          cases h
          intro hx
          rcases List.mem_cons.mp hx with hx | hx
          · exact h2 hx.symm
          · exact ih (by rw [hr]) hx

theorem tryPrintAt_no_nl {s a r : List Char} (h : tryPrintAt s = some (a, r)) :
    '\n' ∉ a := by
  unfold tryPrintAt at h
  cases hm : matchLit kwPrint s with
  | none => rw [hm] at h; cases h
  | some r0 =>
    rw [hm] at h
    exact scanToCloseParen_no_nl h

theorem scanPrintsF_no_nl :
    ∀ (n : Nat) (s stmt : List Char), stmt ∈ scanPrintsF n s → '\n' ∉ stmt := by
  intro n
  induction n with
  | zero => intro s stmt h; simp [scanPrintsF] at h
  | succ m ih =>
    intro s stmt h
    cases s with
    | nil => simp [scanPrintsF] at h
    | cons c cs =>
      rw [scanPrintsF] at h
      cases hp : tryPrintAt (c :: cs) with
      | none =>
        rw [hp] at h
        exact ih cs stmt h
      | some pr =>
        rw [hp] at h
        rcases List.mem_cons.mp h with h | h
        · subst h
          exact tryPrintAt_no_nl hp
        · exact ih pr.2 stmt h

theorem matchLit_suffix_mem {a : Char} :
    ∀ {p s r : List Char}, matchLit p s = some r → a ∈ r → a ∈ s := by
  intro p
  induction p with
  | nil =>
    intro s r h ha
    rw [matchLit] at h
    cases h
    exact ha
  | cons q qs ih =>
    intro s r h ha
    cases s with
    | nil => rw [matchLit] at h; cases h
    | cons c cs =>
      rw [matchLit] at h
      by_cases hq : q = c
      · rw [if_pos hq] at h
        exact List.mem_cons_of_mem c (ih h ha)
      · rw [if_neg hq] at h; cases h

theorem skipWs_mem {a : Char} {s : List Char} (h : a ∈ skipWs s) : a ∈ s :=
  (List.dropWhile_sublist pyIsSpace).mem h

theorem scanToNl_has_nl :
    ∀ {s g r : List Char}, scanToNl s = some (g, r) → '\n' ∈ s := by
  intro s
  induction s with
  | nil => intro g r h; simp [scanToNl] at h
  | cons c cs ih =>
    intro g r h
    rw [scanToNl] at h
    by_cases hc : c = '\n'
    · simp [hc]
    · rw [if_neg hc] at h
      cases hr : scanToNl cs with
      | none => rw [hr] at h; cases h
      | some pr =>
        exact List.mem_cons_of_mem c (ih hr)

theorem tryCommentAt_has_nl {s : List Char} {g : List Char × List Char}
    (h : tryCommentAt s = some g) : '\n' ∈ s := by
  cases s with
  | nil => simp [tryCommentAt] at h
  | cons c r0 =>
    simp only [tryCommentAt] at h
    by_cases hc : c = '#'
    · rw [if_pos hc] at h
      cases hm : matchLit kwInput (skipWs r0) with
      | none => simp only [hm] at h; cases h
      | some r1 =>
        simp only [hm] at h
        cases hn : scanToNl (skipWs r1) with
        | none => simp only [hn] at h; cases h
        | some pr =>
          have h1 : '\n' ∈ skipWs r1 := scanToNl_has_nl hn
          have h2 : '\n' ∈ r1 := skipWs_mem h1
          have h3 : '\n' ∈ skipWs r0 := matchLit_suffix_mem hm h2
          exact List.mem_cons_of_mem _ (skipWs_mem h3)
    · rw [if_neg hc] at h
      cases h

theorem searchComment_has_nl :
    ∀ {s : List Char} {g : List Char × List Char},
      searchComment s = some g → '\n' ∈ s := by
  intro s
  induction s with
  | nil => intro g h; simp [searchComment] at h
  | cons c cs ih =>
    intro g h
    rw [searchComment] at h
    cases ht : tryCommentAt (c :: cs) with
    | none =>
      rw [ht] at h
      exact List.mem_cons_of_mem c (ih h)
    | some g0 =>
      rw [ht] at h
      exact tryCommentAt_has_nl ht

theorem strategy2_empty (text : List Char) : strategy2 text = [] := by
  unfold strategy2
  apply List.filterMap_eq_nil_iff.mpr
  intro stmt hstmt
  cases hc : searchComment stmt with
  | none => rfl
  | some g =>
    exact absurd (searchComment_has_nl hc) (scanPrintsF_no_nl _ _ _ hstmt)

theorem word_not_space {c : Char} (h : pyIsWordChar c = true) : pyIsSpace c = false := by
  cases hx : pyIsSpace c
  · rfl
  · exfalso
    have hx' : ((((c = ' ' ∨ c = '\t') ∨ c = '\n') ∨ c = '\r') ∨ c = '\x0b') ∨ c = '\x0c' := by
      simpa [pyIsSpace] using hx
    rcases hx' with ⟨⟨⟨⟨h1 | h1⟩ | h1⟩ | h1⟩ | h1⟩ | h1 <;> subst h1 <;>
      exact absurd h (by decide)

theorem skipWs_cons_neg {c : Char} {s : List Char} (h : pyIsSpace c = false) :
    skipWs (c :: s) = c :: s := by
  simp [skipWs, List.dropWhile_cons, h]

theorem dropWhile_head_false {p : Char → Bool} :
    ∀ {l : List Char} {z : Char} {zs : List Char}, l.dropWhile p = z :: zs → p z = false := by
  intro l
  induction l with
  | nil => intro z zs h; simp at h
  | cons c cs ih =>
    intro z zs h
    rw [List.dropWhile_cons] at h
    by_cases hc : p c = true
    · rw [if_pos hc] at h
      exact ih h
    · rw [if_neg hc] at h
      cases h
      simpa using hc

theorem dropWhile_append_all {p : Char → Bool} {l : List Char} (r : List Char)
    (h : ∀ x ∈ l, p x = true) :
    (l ++ r).dropWhile p = r.dropWhile p := by
  induction l with
  | nil => rfl
  | cons c cs ih =>
    have hc := h c (by simp)
    rw [List.cons_append, List.dropWhile_cons, if_pos hc]
    exact ih (fun x hx => h x (by simp [hx]))

theorem dropWhile_append_ne {p : Char → Bool} {l : List Char} (r : List Char)
    (h : l.dropWhile p ≠ []) :
    (l ++ r).dropWhile p = l.dropWhile p ++ r := by
  induction l with
  | nil => exact absurd rfl h
  | cons c cs ih =>
    by_cases hc : p c = true
    · rw [List.dropWhile_cons, if_pos hc] at h
      rw [List.cons_append, List.dropWhile_cons, if_pos hc,
        List.dropWhile_cons, if_pos hc]
      exact ih h
    · rw [List.cons_append, List.dropWhile_cons, if_neg hc,
        List.dropWhile_cons, if_neg hc, List.cons_append]

theorem dropWhile_eq_cons_self {p : Char → Bool} {c : Char} {cs : List Char}
    (h : (c :: cs).dropWhile p = c :: cs) : p c = false := by
  by_cases hc : p c = true
  · exfalso
    rw [List.dropWhile_cons, if_pos hc] at h
    have hle : (cs.dropWhile p).length ≤ cs.length := (List.dropWhile_sublist _).length_le
    rw [h] at hle
    simp at hle
  · simpa using hc

theorem stripWs_self_parts {s : List Char} (h : stripWs s = s) :
    s.dropWhile pyIsSpace = s ∧ s.reverse.dropWhile pyIsSpace = s.reverse := by
  have h' : ((s.dropWhile pyIsSpace).reverse.dropWhile pyIsSpace).reverse = s := h
  have hsub1 : List.Sublist (s.dropWhile pyIsSpace) s := List.dropWhile_sublist _
  have hsub2 : List.Sublist ((s.dropWhile pyIsSpace).reverse.dropWhile pyIsSpace)
      (s.dropWhile pyIsSpace).reverse := List.dropWhile_sublist _
  have hlenE : ((s.dropWhile pyIsSpace).reverse.dropWhile pyIsSpace).length = s.length := by
    have := congrArg List.length h'
    simpa using this
  have hlen1 := hsub2.length_le
  have hlen2 := hsub1.length_le
  rw [List.length_reverse] at hlen1
  have hdlen : (s.dropWhile pyIsSpace).length = s.length := by omega
  have hd : s.dropWhile pyIsSpace = s := hsub1.eq_of_length hdlen
  refine ⟨hd, ?_⟩
  have hsub3 : List.Sublist (s.reverse.dropWhile pyIsSpace) s.reverse :=
    List.dropWhile_sublist _
  have hlenE' : (s.reverse.dropWhile pyIsSpace).length = s.reverse.length := by
    rw [hd] at hlenE
    simpa using hlenE
  exact hsub3.eq_of_length hlenE'

theorem lastNonWs_of_strip {s : List Char} (h : stripWs s = s) {z : Char} {zs : List Char}
    (hz : s.reverse = z :: zs) : pyIsSpace z = false := by
  have h2 := (stripWs_self_parts h).2
  rw [hz] at h2
  exact dropWhile_eq_cons_self h2

theorem scanQuoteEnd_msg {m : List Char} (h1 : '"' ∉ m) (h2 : '\n' ∉ m) :
    scanQuoteEnd (m ++ ['"']) = some [] := by
  induction m with
  | nil => rfl
  | cons c cs ih =>
    have hc1 : c ≠ '"' := fun hx => h1 (by simp [hx])
    have hc2 : c ≠ '\n' := fun hx => h2 (by simp [hx])
    rw [List.cons_append, scanQuoteEnd]
    rw [if_neg (by simp [hc1]), if_neg hc2]
    exact ih (fun hx => h1 (List.mem_cons_of_mem _ hx))
      (fun hx => h2 (List.mem_cons_of_mem _ hx))

theorem tryMsg_msgEnc {m : List Char} (h1 : '"' ∉ m) (h2 : '\n' ∉ m) :
    tryMsg (msgEnc (some m)) = some [] := by
  show scanQuoteEnd (m ++ ['"']) = some []
  exact scanQuoteEnd_msg h1 h2

theorem tryMsg_none_of_content (msg : Option (List Char)) {ys : List Char}
    (hne : ys ≠ []) (hq : '"' ∉ ys)
    (hlast : ∀ z zs, ys.reverse = z :: zs → pyIsSpace z = false) :
    tryMsg (ys ++ msgEnc msg) = none := by
  have hd_ne : ys.dropWhile pyIsSpace ≠ [] := by
    intro hd
    have hall := List.dropWhile_eq_nil_iff.mp hd
    obtain ⟨z, zs, hz⟩ : ∃ z zs, ys.reverse = z :: zs := by
      cases hy : ys.reverse with
      | nil =>
        exfalso
        apply hne
        have := congrArg List.reverse hy
        simpa using this
      | cons a b => exact ⟨a, b, rfl⟩
    have hz_mem : z ∈ ys := by
      have hmem : z ∈ ys.reverse := by rw [hz]; simp
      exact List.mem_reverse.mp hmem
    have hsp := hall z hz_mem
    rw [hlast z zs hz] at hsp
    cases hsp
  have hsplit : skipWs (ys ++ msgEnc msg)
      = ys.dropWhile pyIsSpace ++ msgEnc msg := dropWhile_append_ne _ hd_ne
  obtain ⟨z0, d', hd⟩ : ∃ z0 d', ys.dropWhile pyIsSpace = z0 :: d' := by
    cases hx : ys.dropWhile pyIsSpace with
    | nil => exact absurd hx hd_ne
    | cons a b => exact ⟨a, b, rfl⟩
  have hz0_mem : z0 ∈ ys := (List.dropWhile_sublist _).mem (by rw [hd]; simp)
  have hd'_sub : ∀ x ∈ d', x ∈ ys := by
    intro x hx
    exact (List.dropWhile_sublist _).mem (by rw [hd]; simp [hx])
  simp only [tryMsg, hsplit, hd, List.cons_append]
  by_cases hz0c : z0 = ','
  · rw [if_pos hz0c]
    by_cases hd' : d'.dropWhile pyIsSpace = []
    · have hall' := List.dropWhile_eq_nil_iff.mp hd'
      have hsk : skipWs (d' ++ msgEnc msg) = skipWs (msgEnc msg) :=
        dropWhile_append_all _ hall'
      rw [hsk]
      cases msg with
      | none => rfl
      | some m => rfl
    · have hsplit2 : skipWs (d' ++ msgEnc msg)
          = d'.dropWhile pyIsSpace ++ msgEnc msg := dropWhile_append_ne _ hd'
      obtain ⟨w, e', hw⟩ : ∃ w e', d'.dropWhile pyIsSpace = w :: e' := by
        cases hx : d'.dropWhile pyIsSpace with
        | nil => exact absurd hx hd'
        | cons a b => exact ⟨a, b, rfl⟩
      have hw_mem : w ∈ ys := hd'_sub w ((List.dropWhile_sublist _).mem (by rw [hw]; simp))
      have hw_q : ¬ (w = '"') := fun hx => hq (hx ▸ hw_mem)
      simp only [hsplit2, hw, List.cons_append]
      rw [if_neg hw_q]
  · rw [if_neg hz0c]

theorem expLoop_content (msg : Option (List Char))
    (hm : ∀ m, msg = some m → '"' ∉ m ∧ '\n' ∉ m) :
    ∀ (ys acc : List Char), '"' ∉ ys → '\n' ∉ ys →
      (∀ z zs, ys.reverse = z :: zs → pyIsSpace z = false) →
      expLoop acc (ys ++ msgEnc msg) = (acc.reverse ++ ys, []) := by
  intro ys
  induction ys with
  | nil =>
    intro acc _ _ _
    rw [List.nil_append, List.append_nil]
    cases msg with
    | none => rfl
    | some m =>
      obtain ⟨h1, h2⟩ := hm m rfl
      have ht := tryMsg_msgEnc h1 h2
      have hms : msgEnc (some m) = ',' :: (' ' :: '"' :: (m ++ ['"'])) := rfl
      rw [hms] at ht ⊢
      simp only [expLoop, ht]
  | cons y ys' ih =>
    intro acc hq hn hlast
    have htm : tryMsg (y :: (ys' ++ msgEnc msg)) = none := by
      rw [← List.cons_append]
      exact tryMsg_none_of_content msg (by simp) hq hlast
    have hyn : y ≠ '\n' := fun hx => hn (by simp [hx])
    rw [List.cons_append]
    simp only [expLoop, htm]
    rw [if_neg hyn]
    have hrec := ih (y :: acc)
      (fun hx => hq (List.mem_cons_of_mem _ hx))
      (fun hx => hn (List.mem_cons_of_mem _ hx))
      (by
        intro z zs hz
        apply hlast z (zs ++ [y])
        rw [List.reverse_cons, hz]
        rfl)
    rw [hrec]
    simp

theorem spanWord_complete {name : List Char} (hw : ∀ c ∈ name, pyIsWordChar c = true)
    {b : Char} (hb : pyIsWordChar b = false) (r : List Char) :
    spanWord (name ++ b :: r) = (name, b :: r) := by
  induction name with
  | nil =>
    rw [List.nil_append, spanWord]
    rw [if_neg (by simp [hb])]
  | cons c cs ih =>
    have hc := hw c (by simp)
    rw [List.cons_append]
    simp only [spanWord, if_pos hc, ih (fun x hx => hw x (by simp [hx]))]

theorem scanArgs_boundary {args : List Char} (post q : List Char)
    (h1 : ')' ∉ args) (h2 : '\n' ∉ args)
    (hq : matchLit eqeq (skipWs post) = some q) :
    scanArgs (args ++ ')' :: post) = some (args, q) := by
  induction args with
  | nil =>
    rw [List.nil_append]
    simp [scanArgs, hq]
  | cons a as ih =>
    have ha1 : ¬ (a = ')') := fun hx => h1 (by simp [hx])
    have ha2 : ¬ (a = '\n') := fun hx => h2 (by simp [hx])
    rw [List.cons_append]
    simp only [scanArgs, if_neg ha1, if_neg ha2,
      ih (fun hx => h1 (List.mem_cons_of_mem _ hx))
        (fun hx => h2 (List.mem_cons_of_mem _ hx))]

theorem scanAssertsF_empty (n : Nat) : scanAssertsF n [] = [] := by
  cases n <;> rfl

theorem scanAssertsF_cons_pos {n : Nat} {c : Char} {cs : List Char}
    {g : List Char × List Char × List Char} {rest : List Char}
    (h : tryAssertAt (c :: cs) = some (g, rest)) :
    scanAssertsF (n + 1) (c :: cs) = g :: scanAssertsF n rest := by
  simp only [scanAssertsF, h]

theorem tryAssertAt_shape (name args rhs : List Char) (msg : Option (List Char))
    (hn : name ≠ []) (hw : ∀ c ∈ name, pyIsWordChar c = true)
    (ha1 : ')' ∉ args) (ha2 : '\n' ∉ args)
    (hr : stripWs rhs = rhs) (hrq : '"' ∉ rhs) (hrn : '\n' ∉ rhs)
    (hm : ∀ m, msg = some m → '"' ∉ m ∧ '\n' ∉ m) :
    tryAssertAt (kwAssert ++ ' ' ::
        (name ++ '(' :: (args ++ ')' :: ' ' :: '=' :: '=' :: ' ' :: (rhs ++ msgEnc msg))))
      = some ((name, args, rhs), []) := by
  obtain ⟨n0, ntail, hname⟩ : ∃ n0 ntail, name = n0 :: ntail := by
    cases name with
    | nil => exact absurd rfl hn
    | cons a b => exact ⟨a, b, rfl⟩
  have hn0 : pyIsSpace n0 = false := word_not_space (hw n0 (by rw [hname]; simp))
  have hspan := spanWord_complete hw (show pyIsWordChar '(' = false from rfl)
    (args ++ ')' :: ' ' :: '=' :: '=' :: ' ' :: (rhs ++ msgEnc msg))
  have hargs : scanArgs (args ++ ')' :: (' ' :: '=' :: '=' :: ' ' :: (rhs ++ msgEnc msg)))
      = some (args, ' ' :: (rhs ++ msgEnc msg)) :=
    scanArgs_boundary _ _ ha1 ha2 rfl
  have hskX : skipWs (name ++ '(' ::
        (args ++ ')' :: ' ' :: '=' :: '=' :: ' ' :: (rhs ++ msgEnc msg)))
      = name ++ '(' :: (args ++ ')' :: ' ' :: '=' :: '=' :: ' ' :: (rhs ++ msgEnc msg)) := by
    rw [hname, List.cons_append]
    exact skipWs_cons_neg hn0
  have hskP : ∀ s : List Char, skipWs ('(' :: s) = '(' :: s :=
    fun s => skipWs_cons_neg rfl
  have hskR : skipWs (' ' :: (rhs ++ msgEnc msg)) = rhs ++ msgEnc msg := by
    show List.dropWhile pyIsSpace (' ' :: (rhs ++ msgEnc msg)) = rhs ++ msgEnc msg
    rw [List.dropWhile_cons, if_pos (show pyIsSpace ' ' = true from rfl)]
    cases rhs with
    | nil =>
      rw [List.nil_append]
      cases msg with
      | none => rfl
      | some m => rfl
    | cons r0 rr =>
      have hh : pyIsSpace r0 = false :=
        dropWhile_eq_cons_self (stripWs_self_parts hr).1
      rw [List.cons_append, List.dropWhile_cons, if_neg (by simp [hh])]
  have hexp : expLoop [] (rhs ++ msgEnc msg) = (rhs, []) := by
    have h := expLoop_content msg hm rhs [] hrq hrn
      (fun z zs hz => lastNonWs_of_strip hr hz)
    simpa using h
  have hne : name.isEmpty = false := by rw [hname]; rfl
  simp only [tryAssertAt, matchLit_append, show pyIsSpace ' ' = true from rfl,
    eq_self_iff_true, if_true, hskX, hspan, hne, Bool.false_eq_true, if_false,
    hskP, hargs, hskR, hexp]

-- ------------------------------------------------------------------
-- Claim theorems.
-- ------------------------------------------------------------------

/-- C1: for a loaded callable and a case whose input expression evaluates
without error to arguments the callable accepts and whose expected
expression evaluates without error, the runner loop of `run_tests` records
PASSED iff the returned value equals the evaluated expected value, FAILED
otherwise, and never ERROR for such a case. -/
theorem runCase_passed_iff {V : Type} [DecidableEq V]
    (ev : List Char → Except (List Char) V) (callF : List V → Except (List Char) V)
    (t : TestCase) (args : List V) (actual expd : V)
    (h1 : evalArgs ev t.input = .ok args)
    (h2 : callF args = .ok actual)
    (h3 : ev (stripWs t.expected) = .ok expd) :
    runCase ev callF t = .done actual expd ∧
    (caseStatus (runCase ev callF t) = Status.PASSED ↔ actual = expd) ∧
    (caseStatus (runCase ev callF t) = Status.FAILED ↔ actual ≠ expd) ∧
    caseStatus (runCase ev callF t) ≠ Status.ERROR := by
  have hr : runCase ev callF t = .done actual expd := by
    simp [runCase, h1, h2, h3]
  refine ⟨hr, ?_, ?_, ?_⟩ <;> rw [hr] <;>
    by_cases h : actual = expd <;> simp [caseStatus, h]

theorem runCase_passed_iff_witness :
    runCase evalDemo callAdd ⟨"(2, 3)".toList, "5".toList⟩ = CaseOutcome.done 5 5 ∧
    caseStatus (runCase evalDemo callAdd ⟨"(2, 3)".toList, "5".toList⟩) = Status.PASSED := by
  have h := runCase_passed_iff evalDemo callAdd ⟨"(2, 3)".toList, "5".toList⟩
    [2, 3] 5 5 (by rfl) (by rfl) (by rfl)
  exact ⟨h.1, h.2.1.mpr rfl⟩

/-- C2: an exception while evaluating a case's input expression or while
invoking the callable is caught for that case alone and recorded with the
exception message; the loop of `run_tests` still produces one outcome per
case, each computed independently, so the failure aborts nothing. -/
theorem runCase_error_isolated {V : Type} [DecidableEq V]
    (ev : List Char → Except (List Char) V) (callF : List V → Except (List Char) V)
    (t : TestCase) (msg : List Char) (cases : List TestCase)
    (h : evalArgs ev t.input = .error msg ∨
         ∃ args, evalArgs ev t.input = .ok args ∧ callF args = .error msg) :
    runCase ev callF t = .error msg ∧
    caseStatus (runCase ev callF t) = Status.ERROR ∧
    (runAll ev callF cases).1 = cases.map (runCase ev callF) ∧
    (runAll ev callF cases).1.length = cases.length := by
  have hr : runCase ev callF t = .error msg := by
    rcases h with h | ⟨args, ha, hc⟩
    · simp [runCase, h]
    · simp [runCase, ha, hc]
  refine ⟨hr, by rw [hr]; rfl, runAll_fst ev callF cases, ?_⟩
  rw [runAll_fst]; simp

theorem runCase_error_isolated_witness :
    runCase evalDemo callAdd ⟨"undefined".toList, "5".toList⟩
      = CaseOutcome.error ("NameError".toList) ∧
    caseStatus (runCase evalDemo callAdd ⟨"undefined".toList, "5".toList⟩) = Status.ERROR ∧
    (runAll evalDemo callAdd [⟨"undefined".toList, "5".toList⟩, ⟨"(2, 3)".toList, "5".toList⟩]).1
      = [⟨"undefined".toList, "5".toList⟩, ⟨"(2, 3)".toList, "5".toList⟩].map
          (runCase evalDemo callAdd) := by
  have h := runCase_error_isolated evalDemo callAdd ⟨"undefined".toList, "5".toList⟩
    ("NameError".toList)
    [⟨"undefined".toList, "5".toList⟩, ⟨"(2, 3)".toList, "5".toList⟩]
    (Or.inl (by rfl))
  exact ⟨h.1, h.2.1, h.2.2.1⟩

/-- C10: an exception raised while evaluating the expected expression (after
the callable has already returned) is caught by the same per-case handler:
the case is recorded as an error entry and the loop of `run_tests` still
produces one outcome per case. -/
theorem runCase_expected_error_isolated {V : Type} [DecidableEq V]
    (ev : List Char → Except (List Char) V) (callF : List V → Except (List Char) V)
    (t : TestCase) (args : List V) (actual : V) (msg : List Char) (cases : List TestCase)
    (h1 : evalArgs ev t.input = .ok args)
    (h2 : callF args = .ok actual)
    (h3 : ev (stripWs t.expected) = .error msg) :
    runCase ev callF t = .error msg ∧
    caseStatus (runCase ev callF t) = Status.ERROR ∧
    (runAll ev callF cases).1 = cases.map (runCase ev callF) ∧
    (runAll ev callF cases).1.length = cases.length := by
  have hr : runCase ev callF t = .error msg := by
    simp [runCase, h1, h2, h3]
  refine ⟨hr, by rw [hr]; rfl, runAll_fst ev callF cases, ?_⟩
  rw [runAll_fst]; simp

theorem runCase_expected_error_isolated_witness :
    runCase evalDemo callAdd ⟨"(2, 3)".toList, "oops".toList⟩
      = CaseOutcome.error ("NameError".toList) ∧
    (runAll evalDemo callAdd [⟨"(2, 3)".toList, "oops".toList⟩, ⟨"(2, 2)".toList, "4".toList⟩]).1.length
      = 2 := by
  have h := runCase_expected_error_isolated evalDemo callAdd
    ⟨"(2, 3)".toList, "oops".toList⟩ [2, 3] 5 ("NameError".toList)
    [⟨"(2, 3)".toList, "oops".toList⟩, ⟨"(2, 2)".toList, "4".toList⟩]
    (by rfl) (by rfl) (by rfl)
  exact ⟨h.1, h.2.2.2⟩

/-- C3: for a non-empty solution and a non-empty case list, `run_tests`
reports one outcome per input case in order, `total_count` is exactly the
number of input cases, and `passed_count` counts exactly the PASSED
outcomes, hence never exceeds `total_count`. -/
theorem run_tests_counts {V : Type} [DecidableEq V] (solutionCode : List Char)
    (ev : List Char → Except (List Char) V) (callF : List V → Except (List Char) V)
    (cases : List TestCase)
    (hcode : solutionCode ≠ []) (hcases : cases ≠ []) :
    run_tests solutionCode ev callF cases =
      RunReport.report (cases.map (runCase ev callF))
        ((cases.map (runCase ev callF)).filter
          (fun r => decide (caseStatus r = Status.PASSED))).length
        cases.length ∧
    ((cases.map (runCase ev callF)).filter
      (fun r => decide (caseStatus r = Status.PASSED))).length ≤ cases.length ∧
    (cases.map (runCase ev callF)).length = cases.length := by
  have h1 : solutionCode.isEmpty = false := by
    cases solutionCode <;> simp_all [List.isEmpty]
  have h2 : cases.isEmpty = false := by
    cases cases <;> simp_all [List.isEmpty]
  refine ⟨?_, ?_, by simp⟩
  · simp [run_tests, h1, h2, runAll_fst, runAll_snd]
  · calc ((cases.map (runCase ev callF)).filter
        (fun r => decide (caseStatus r = Status.PASSED))).length
        ≤ (cases.map (runCase ev callF)).length := List.length_filter_le _ _
      _ = cases.length := by simp

theorem run_tests_counts_witness :
    run_tests "def add(a, b):".toList evalDemo callAdd
        [⟨"(2, 3)".toList, "5".toList⟩, ⟨"(2, 2)".toList, "5".toList⟩, ⟨"bad".toList, "5".toList⟩]
      = RunReport.report
          [CaseOutcome.done 5 5, CaseOutcome.done 4 5, CaseOutcome.error ("NameError".toList)]
          1 3 := by
  have h := run_tests_counts "def add(a, b):".toList evalDemo callAdd
    [⟨"(2, 3)".toList, "5".toList⟩, ⟨"(2, 2)".toList, "5".toList⟩, ⟨"bad".toList, "5".toList⟩]
    (by decide) (by decide)
  refine h.1.trans ?_
  rfl

/-- C4: `extract_test_cases` returns the cases of exactly one strategy:
strategy 1 (structured list) when it yielded anything, otherwise strategy 2
(annotated print) when it yielded anything, otherwise strategy 3
(assertions); the result is always one of the three, never a mixture. -/
theorem extract_test_cases_strategy_order (text : List Char) :
    (strategy1 text ≠ [] → extract_test_cases text = strategy1 text) ∧
    (strategy1 text = [] → strategy2 text ≠ [] → extract_test_cases text = strategy2 text) ∧
    (strategy1 text = [] → strategy2 text = [] → extract_test_cases text = strategy3 text) ∧
    (extract_test_cases text = strategy1 text ∨ extract_test_cases text = strategy2 text ∨
      extract_test_cases text = strategy3 text) := by
  by_cases h1 : strategy1 text = []
  · by_cases h2 : strategy2 text = []
    · have he : extract_test_cases text = strategy3 text := by
        simp [extract_test_cases, h1, h2]
      exact ⟨fun hx => absurd h1 hx, fun _ hx => absurd h2 hx, fun _ _ => he,
        Or.inr (Or.inr he)⟩
    · have e2 : (strategy2 text).isEmpty = false := by
        cases hs : strategy2 text <;> simp_all
      have he : extract_test_cases text = strategy2 text := by
        simp [extract_test_cases, h1, e2]
      exact ⟨fun hx => absurd h1 hx, fun _ _ => he, fun _ hx => absurd hx h2,
        Or.inr (Or.inl he)⟩
  · have e1 : (strategy1 text).isEmpty = false := by
      cases hs : strategy1 text <;> simp_all
    have he : extract_test_cases text = strategy1 text := by
      simp [extract_test_cases, e1]
    exact ⟨fun _ => he, fun hx => absurd hx h1, fun hx => absurd hx h1,
      Or.inl he⟩

theorem extract_test_cases_strategy_order_witness :
    extract_test_cases ("assert add(2, 3) == 5".toList)
      = strategy3 ("assert add(2, 3) == 5".toList) :=
  (extract_test_cases_strategy_order ("assert add(2, 3) == 5".toList)).2.2.1
    (strategy1_empty _) (strategy2_empty _)

/-- C5 (code bug): on the spec's own scenario — a fenced block assigning
`test_cases = [(2, 3, 5), (0, 0, 0)]` — the structured-list strategy and
hence `extract_test_cases` produce no case at all instead of the two
claimed cases: the content of the list is first split at every comma, so
the per-tuple split can never see a comma again and the two-part condition
of `parseTupleEntry` never holds. -/
theorem extract_test_cases_structured_list_dead :
    strategy1 ("```python\ntest_cases = [(2, 3, 5), (0, 0, 0)]\n```".toList) = [] ∧
    extract_test_cases ("```python\ntest_cases = [(2, 3, 5), (0, 0, 0)]\n```".toList) = [] :=
  ⟨strategy1_empty _, by
    simp only [extract_test_cases, strategy1_empty, strategy2_empty, List.isEmpty_nil,
      if_true]
    rfl⟩

/-- C9: a text consisting of an assertion statement
`assert <name>(<args>) == <expected>`, optionally followed by a string
message, makes the assertion strategy (and hence `extract_test_cases`,
since the two earlier strategies yield nothing) produce exactly one case:
its input expression is the argument text wrapped in parentheses when not
already parenthesized, and its expected expression is the right-hand side
with the message suffix discarded. -/
theorem extract_test_cases_assert_strategy (name args rhs : List Char)
    (msg : Option (List Char))
    (hn : name ≠ []) (hw : ∀ c ∈ name, pyIsWordChar c = true)
    (ha1 : ')' ∉ args) (ha2 : '\n' ∉ args)
    (hr : stripWs rhs = rhs) (hrq : '"' ∉ rhs) (hrn : '\n' ∉ rhs)
    (hm : ∀ m, msg = some m → '"' ∉ m ∧ '\n' ∉ m) :
    extract_test_cases (kwAssert ++ ' ' ::
        (name ++ '(' :: (args ++ ')' :: ' ' :: '=' :: '=' :: ' ' :: (rhs ++ msgEnc msg))))
      = [⟨wrapParens (stripWs args), rhs⟩] := by
  have htry := tryAssertAt_shape name args rhs msg hn hw ha1 ha2 hr hrq hrn hm
  have hk : kwAssert = 'a' :: "ssert".toList := rfl
  have hTc : kwAssert ++ ' ' ::
        (name ++ '(' :: (args ++ ')' :: ' ' :: '=' :: '=' :: ' ' :: (rhs ++ msgEnc msg)))
      = 'a' :: ("ssert".toList ++ ' ' ::
        (name ++ '(' :: (args ++ ')' :: ' ' :: '=' :: '=' :: ' ' :: (rhs ++ msgEnc msg)))) := by
    rw [hk, List.cons_append]
  have hs3 : strategy3 (kwAssert ++ ' ' ::
        (name ++ '(' :: (args ++ ')' :: ' ' :: '=' :: '=' :: ' ' :: (rhs ++ msgEnc msg))))
      = [⟨wrapParens (stripWs args), stripWs rhs⟩] := by
    have htry' : tryAssertAt ('a' :: ("ssert".toList ++ ' ' ::
          (name ++ '(' :: (args ++ ')' :: ' ' :: '=' :: '=' :: ' ' :: (rhs ++ msgEnc msg)))))
        = some ((name, args, rhs), []) := by
      rw [← hTc]; exact htry
    simp only [strategy3]
    rw [hTc, List.length_cons, scanAssertsF_cons_pos htry', scanAssertsF_empty]
    rfl
  rw [hr] at hs3
  simp [extract_test_cases, strategy1_empty, strategy2_empty, hs3]

theorem extract_test_cases_assert_strategy_witness :
    extract_test_cases ("assert add(2, 2) == 5".toList)
      = [⟨"(2, 2)".toList, "5".toList⟩] ∧
    extract_test_cases ("assert add(2, 2) == 5, \"expected five\"".toList)
      = [⟨"(2, 2)".toList, "5".toList⟩] := by
  constructor
  · have h := extract_test_cases_assert_strategy ("add".toList) ("2, 2".toList)
      ("5".toList) none (by decide) (by decide) (by decide) (by decide)
      (by decide) (by decide) (by decide) (fun m hm => Option.noConfusion hm)
    have heq : kwAssert ++ ' ' :: ("add".toList ++ '(' ::
          ("2, 2".toList ++ ')' :: ' ' :: '=' :: '=' :: ' ' :: ("5".toList ++ msgEnc none)))
        = "assert add(2, 2) == 5".toList := by decide
    rw [heq] at h
    rw [h]
    decide
  · have h := extract_test_cases_assert_strategy ("add".toList) ("2, 2".toList)
      ("5".toList) (some ("expected five".toList)) (by decide) (by decide) (by decide)
      (by decide) (by decide) (by decide) (by decide)
      (by intro m hm; injection hm with h0; subst h0; exact ⟨by decide, by decide⟩)
    have heq : kwAssert ++ ' ' :: ("add".toList ++ '(' ::
          ("2, 2".toList ++ ')' :: ' ' :: '=' :: '=' :: ' ' ::
            ("5".toList ++ msgEnc (some ("expected five".toList)))))
        = "assert add(2, 2) == 5, \"expected five\"".toList := by decide
    rw [heq] at h
    rw [h]
    decide

/-- C6 counterexample: for a response whose single fenced block contains
the spec's entry-point sentinel, `extract_solution` keeps the text from
the sentinel to the end of the block instead of removing it, so the
claimed truncation does not happen. -/
theorem extract_solution_no_marker_truncation_cex :
    extract_solution
        ("```python\ndef f():\n    return 1\n# if this is the main entry point\nf()\n```".toList)
      = "def f():\n    return 1\n# if this is the main entry point\nf()".toList ∧
    extract_solution
        ("```python\ndef f():\n    return 1\n# if this is the main entry point\nf()\n```".toList)
      ≠ "def f():\n    return 1".toList := by
  constructor
  · rfl
  · decide

/-- C6 (amended): for every response containing a single well-formed
fenced code block, `extract_solution` returns exactly that block's
contents, trimmed; no entry-point truncation of any kind is performed,
so the contents are returned in full. -/
theorem extract_solution_fenced_block (pre content post : List Char)
    (hp : tickChar ∉ pre) (hc : tickChar ∉ content) :
    extract_solution (pre ++ fenceOpen ++ content ++ closeFence ++ post)
      = stripWs content := by
  have hopen := tryBlockAt_opener content post hc
  have hcons : fenceOpen ++ (content ++ (closeFence ++ post))
      = tickChar :: ("``python\n".toList ++ (content ++ (closeFence ++ post))) := by
    have hf : fenceOpen = tickChar :: "``python\n".toList := by decide
    rw [hf, List.cons_append]
  have hsb : searchBlock (fenceOpen ++ (content ++ (closeFence ++ post)))
      = some content := by
    rw [hcons] at hopen ⊢
    exact searchBlock_pos hopen
  have hall : searchBlock (pre ++ (fenceOpen ++ (content ++ (closeFence ++ post))))
      = some content := by
    rw [searchBlock_skip _ _ hp, hsb]
  simp only [List.append_assoc]
  simp [extract_solution, hall]

theorem extract_solution_fenced_block_witness :
    extract_solution
        ("Here: ".toList ++ fenceOpen ++ "def add(a, b):\n    return a + b".toList
          ++ closeFence ++ " done".toList)
      = "def add(a, b):\n    return a + b".toList := by
  have h := extract_solution_fenced_block ("Here: ".toList)
    ("def add(a, b):\n    return a + b".toList) (" done".toList)
    (by decide) (by decide)
  exact h.trans (by decide)

/-- C7 counterexample: for a response with no fenced code block but with a
function-definition signature, `extract_solution` returns the empty string
rather than the text from the signature to the end: there is no
function-signature fallback in the code. -/
theorem extract_solution_no_fallback_cex :
    extract_solution ("def add(a, b):\n    return a + b".toList) = [] ∧
    "def add(a, b):\n    return a + b".toList ≠ ([] : List Char) := by
  constructor
  · rfl
  · decide

/-- C7 (amended): for every response containing no backtick (hence no
fenced code block), `extract_solution` returns the empty string — it does
not fall back to a function-definition signature, and it never raises. -/
theorem extract_solution_no_block_empty (t : List Char) (h : tickChar ∉ t) :
    extract_solution t = [] := by
  simp [extract_solution, searchBlock_none t h]

theorem extract_solution_no_block_empty_witness :
    extract_solution ("No code was produced for this problem.".toList) = [] :=
  extract_solution_no_block_empty ("No code was produced for this problem.".toList)
    (by decide)

/-- C8 counterexample: a top-level callable defined before the `Solution`
class is selected as a standalone function, so the `Solution` class is not
preferred regardless of order, contradicting the claim. -/
theorem loadEntryPoint_class_not_preferred_cex :
    loadEntryPoint
        [("helper", PyObj.callable (some [])),
         ("Solution", PyObj.callable (some ["twoSum"]))]
      = LoadOutcome.standalone (PyObj.callable (some [])) ∧
    loadEntryPoint
        [("helper", PyObj.callable (some [])),
         ("Solution", PyObj.callable (some ["twoSum"]))]
      ≠ LoadOutcome.classMethod "twoSum" := by
  exact ⟨by rfl, by decide⟩

/-- C8 (amended): the loader selects the `Solution` class only when no
other callable binding (excluding one named `test_cases`) precedes it in
namespace iteration order; in that case it instantiates the class and
probes the fixed preference list `prefMethods`, taking the first method
present. -/
theorem loadEntryPoint_solution_first (pre post : List (String × PyObj))
    (ms : List String)
    (h : ∀ p ∈ pre, p.1 ≠ "Solution" ∧ (isCallable p.2 = false ∨ p.1 = "test_cases")) :
    loadEntryPoint (pre ++ ("Solution", PyObj.callable (some ms)) :: post) =
      match prefMethods.find? (fun m => ms.contains m) with
      | some m => LoadOutcome.classMethod m
      | none => LoadOutcome.noMethod := by
  have hfind : findEntry (pre ++ ("Solution", PyObj.callable (some ms)) :: post)
      = some (.classSel (PyObj.callable (some ms))) := by
    induction pre with
    | nil => simp [findEntry]
    | cons p ps ih =>
      obtain ⟨hn, hc⟩ := h p (by simp)
      have hskip : ¬ (isCallable p.2 = true ∧ p.1 ≠ "test_cases") := by
        rcases hc with hc | hc
        · intro hx; rw [hc] at hx; exact Bool.false_ne_true hx.1
        · intro hx; exact hx.2 hc
      obtain ⟨n, o⟩ := p
      simp only [List.cons_append, findEntry]
      rw [if_neg (by simpa using hn)]
      rw [if_neg (by simpa using hskip)]
      exact ih (fun q hq => h q (by simp [hq]))
  simp [loadEntryPoint, hfind, pickMethod]

theorem loadEntryPoint_solution_first_witness :
    loadEntryPoint
        [("__name__", PyObj.nonCallable),
         ("test_cases", PyObj.callable (some [])),
         ("Solution", PyObj.callable (some ["sortArray", "twoSum"]))]
      = LoadOutcome.classMethod "twoSum" := by
  have h := loadEntryPoint_solution_first
    [("__name__", PyObj.nonCallable), ("test_cases", PyObj.callable (some []))]
    [] ["sortArray", "twoSum"] (by decide)
  exact h.trans (by rfl)

end CrewSolver
